import Mathlib

/-!
Verification of the `gini` INI-file reader (gini.go).

The Go source is shallowly embedded.  Strings are modelled as lists of
characters (`Str`); Go maps as association lists kept in first-insertion
order (Go map iteration order is unspecified, so every property proved about
listings is order-insensitive); the read loop of `parseIni` as a recursion
over the list of input lines.  Go indexes strings by byte, but every index
the code inspects (`IndexAny "#;"`, `IndexRune '='`, `line[0]`, `line[ln-1]`)
is the position of an ASCII character, where byte positions and character
positions select the same prefixes, suffixes and characters, so the
character-level model agrees with the byte-level code.  `strings.ToLower`
is modelled on the ASCII range (the Go function also maps non-ASCII
letters, which no name in this development uses).
-/

namespace Gini

/-- A Go string, as its sequence of characters. -/
abbrev Str := List Char

/-- Go `unicode.IsSpace`: the Unicode White_Space code points
(used by `strings.TrimSpace`). -/
def isSpaceChar (c : Char) : Bool :=
  decide (c.toNat = 9 ∨ c.toNat = 10 ∨ c.toNat = 11 ∨ c.toNat = 12 ∨ c.toNat = 13 ∨
    c.toNat = 32 ∨ c.toNat = 133 ∨ c.toNat = 160 ∨ c.toNat = 5760 ∨
    (8192 ≤ c.toNat ∧ c.toNat ≤ 8202) ∨ c.toNat = 8232 ∨ c.toNat = 8233 ∨
    c.toNat = 8239 ∨ c.toNat = 8287 ∨ c.toNat = 12288)

/-- Go `strings.ToLower`, one character (ASCII case mapping). -/
def toLowerChar (c : Char) : Char :=
  if 65 ≤ c.toNat ∧ c.toNat ≤ 90 then Char.ofNat (c.toNat + 32) else c

/-- Go `strings.ToLower`. -/
def toLowerStr (s : Str) : Str := s.map toLowerChar

/-- Leading half of Go `strings.TrimSpace`. -/
def trimLeft (s : Str) : Str := s.dropWhile isSpaceChar

/-- Trailing half of Go `strings.TrimSpace`. -/
def trimRight (s : Str) : Str := (s.reverse.dropWhile isSpaceChar).reverse

/-- Go `strings.TrimSpace`. -/
def trimSpace (s : Str) : Str := trimRight (trimLeft s)

/-- gini.go:157-161 — `n := strings.IndexAny(line, "#;"); if n >= 0 { line = line[0:n] }`. -/
def stripComment (line : Str) : Str :=
  match line.findIdx? (fun c => c == '#' || c == ';') with
  | some n => line.take n
  | none => line

/-- gini.go:64 — `type keys map[string]string`, as an association list. -/
abbrev Keys := List (Str × Str)

/-- gini.go:61 — `sections map[string]keys`, as an association list. -/
abbrev Sections := List (Str × Keys)

/-- Go map read `m[k]` (found or not). -/
def lookupKeys : Keys → Str → Option Str
  | [], _ => none
  | (k0, v0) :: rest, k => if k0 = k then some v0 else lookupKeys rest k

/-- Go map read `data[s]` (found or not). -/
def lookupSections : Sections → Str → Option Keys
  | [], _ => none
  | (s0, ks) :: rest, s => if s0 = s then some ks else lookupSections rest s

/-- Go map assignment `section[k] = v`. -/
def insertKeys : Keys → Str → Str → Keys
  | [], k, v => [(k, v)]
  | (k0, v0) :: rest, k, v =>
    if k0 = k then (k0, v) :: rest else (k0, v0) :: insertKeys rest k v

/-- gini.go:203-209 — fetch `data[sectionName]`, creating an empty map when
absent, then assign `section[keyName] = keyValue`. -/
def insertSectionKey : Sections → Str → Str → Str → Sections
  | [], s, k, v => [(s, [(k, v)])]
  | (s0, ks) :: rest, s, k, v =>
    if s0 = s then (s0, insertKeys ks k v) :: rest
    else (s0, ks) :: insertSectionKey rest s k v

/-- Value stored for key `k` of section `s`, if any (an absent section acts
as the empty map, exactly as in `Ini.Read`). -/
def lookup2 (data : Sections) (s k : Str) : Option Str :=
  lookupKeys ((lookupSections data s).getD []) k

/-- gini.go:60-62 — `type Ini struct { sections map[string]keys }`. -/
structure Ini where
  sections : Sections
deriving DecidableEq, Repr

/-- gini.go:70-77 — `Read`: the empty string when the section or the key is
absent, otherwise the stored value. -/
def Ini.Read (f : Ini) (sectionName keyName : Str) : Str :=
  match lookupSections f.sections sectionName with
  | none => []
  | some ks => (lookupKeys ks keyName).getD []

/-- gini.go:83-86 — `SectionExists`. -/
def Ini.SectionExists (f : Ini) (sectionName : Str) : Bool :=
  (lookupSections f.sections sectionName).isSome

/-- gini.go:92-100 — `KeyExists`. -/
def Ini.KeyExists (f : Ini) (sectionName keyName : Str) : Bool :=
  match lookupSections f.sections sectionName with
  | none => false
  | some ks => (lookupKeys ks keyName).isSome

/-- gini.go:106-114 — `SectionList` (Go map iteration order is unspecified;
the model lists sections in first-insertion order). -/
def Ini.SectionList (f : Ini) : List Str := f.sections.map Prod.fst

/-- gini.go:120-133 — `KeyList`. -/
def Ini.KeyList (f : Ini) (sectionName : Str) : List Str :=
  match lookupSections f.sections sectionName with
  | none => []
  | some ks => ks.map Prod.fst

/-- The four parse failures of gini.go (`errors.New` with the message kind),
with the reported line number. -/
inductive ParseError where
  | invalidSection (lineNumber : Nat)
  | invalidFormat (lineNumber : Nat)
  | keyWithoutSection (lineNumber : Nat)
  | emptyKey (lineNumber : Nat)
deriving DecidableEq, Repr

/-- The line number an error reports. -/
def ParseError.lineNumber : ParseError → Nat
  | .invalidSection n => n
  | .invalidFormat n => n
  | .keyWithoutSection n => n
  | .emptyKey n => n

/-- One iteration of the read loop of gini.go:146-210 on one raw input line
(without its trailing newline, which `TrimSpace` discards anyway): comment
stripping, trimming, blank skip, section-header handling, key/value
handling.  The loop state is `(data, sectionName)`. -/
def processLine (st : Sections × Str) (lineNumber : Nat) (rawLine : Str) :
    Except ParseError (Sections × Str) :=
  let line := trimSpace (stripComment rawLine)
  if line.isEmpty then .ok st
  else if line.head? = some '[' then
    if line.length ≤ 2 ∨ line.getLast? ≠ some ']' then
      .error (.invalidSection lineNumber)
    else
      .ok (st.1, trimSpace (toLowerStr ((line.drop 1).dropLast)))
  else
    match line.findIdx? (fun c => c == '=') with
    | none => .error (.invalidFormat lineNumber)
    | some n =>
      if st.2.isEmpty then .error (.keyWithoutSection lineNumber)
      else
        let keyName := toLowerStr (trimSpace (line.take n))
        let keyValue := trimSpace (line.drop (n + 1))
        if keyName.isEmpty then .error (.emptyKey lineNumber)
        else .ok (insertSectionKey st.1 st.2 keyName keyValue, st.2)

/-- The read loop of gini.go:146-210 over the remaining lines; `lineNumber`
counts the lines already consumed (`lineNumber++` runs before the line is
examined, so the first remaining line reports `lineNumber + 1`). -/
def parseLinesFrom : List Str → Nat → Sections × Str → Except ParseError (Sections × Str)
  | [], _, st => .ok st
  | l :: ls, lineNumber, st =>
    match processLine st (lineNumber + 1) l with
    | .error e => .error e
    | .ok st2 => parseLinesFrom ls (lineNumber + 1) st2

/-- gini.go:140-213 — `parseIni`, on the list of input lines. -/
def parseIni (lines : List Str) : Except ParseError Sections :=
  (parseLinesFrom lines 0 ([], [])).map Prod.fst

/-- `bufio.Reader.ReadString('\n')` cuts the input at every newline; the
final fragment (after the last newline, possibly empty) is still handed to
the loop body together with `io.EOF`. -/
def splitLines : Str → List Str
  | [] => [[]]
  | c :: rest =>
    match splitLines rest with
    | [] => [[c]]
    | l :: ls => if c = '\n' then [] :: l :: ls else (c :: l) :: ls

/-- gini.go:220-233 — `LoadReader`, with the reader's contents given as a
character sequence (I/O failures are outside the model). -/
def LoadReader (input : Str) : Except ParseError Ini :=
  (parseIni (splitLines input)).map Ini.mk

/-- Reference sequence, following the spec (§4.1/§8): the (section, key,
value) assignments the parser accepts, in input order, starting from current
section name `sect`.  On a line the parser would reject it stops (the parses
we compare against are successful ones, where rejection never happens). -/
def specAssignsFrom : List Str → Str → List (Str × Str × Str)
  | [], _ => []
  | l :: ls, sect =>
    let line := trimSpace (stripComment l)
    if line.isEmpty then specAssignsFrom ls sect
    else if line.head? = some '[' then
      if line.length ≤ 2 ∨ line.getLast? ≠ some ']' then []
      else specAssignsFrom ls (trimSpace (toLowerStr ((line.drop 1).dropLast)))
    else
      match line.findIdx? (fun c => c == '=') with
      | none => []
      | some n =>
        if sect.isEmpty then []
        else
          let keyName := toLowerStr (trimSpace (line.take n))
          let keyValue := trimSpace (line.drop (n + 1))
          if keyName.isEmpty then []
          else (sect, keyName, keyValue) :: specAssignsFrom ls sect

/-- The accepted assignments of a whole input (initial section name empty). -/
def specAssigns (lines : List Str) : List (Str × Str × Str) :=
  specAssignsFrom lines []

/-- Left-biased choice on optional values. -/
def optOr : Option Str → Option Str → Option Str
  | some v, _ => some v
  | none, b => b

/-- The value of the last assignment to pair `(s, k)` in the list, if any
(later entries take precedence). -/
def lastAssign : List (Str × Str × Str) → Str → Str → Option Str
  | [], _, _ => none
  | (s0, k0, v0) :: rest, s, k =>
    optOr (lastAssign rest s k) (if s0 = s ∧ k0 = k then some v0 else none)

/-! ### Character-level lemmas -/

theorem toNat_ofNat_shift (m : Nat) (h1 : 65 ≤ m) (h2 : m ≤ 90) :
    (Char.ofNat (m + 32)).toNat = m + 32 := by
  interval_cases m <;> decide

theorem toLowerChar_toLowerChar (c : Char) :
    toLowerChar (toLowerChar c) = toLowerChar c := by
  by_cases h : 65 ≤ c.toNat ∧ c.toNat ≤ 90
  · have e1 : toLowerChar c = Char.ofNat (c.toNat + 32) := by
      unfold toLowerChar; exact if_pos h
    have e2 := toNat_ofNat_shift c.toNat h.1 h.2
    rw [e1]
    unfold toLowerChar
    rw [e2, if_neg (by omega)]
  · have e1 : toLowerChar c = c := by unfold toLowerChar; exact if_neg h
    rw [e1, e1]

theorem isSpaceChar_toLowerChar (c : Char) :
    isSpaceChar (toLowerChar c) = isSpaceChar c := by
  by_cases h : 65 ≤ c.toNat ∧ c.toNat ≤ 90
  · have e1 : toLowerChar c = Char.ofNat (c.toNat + 32) := by
      unfold toLowerChar; exact if_pos h
    have e2 := toNat_ofNat_shift c.toNat h.1 h.2
    rw [e1]
    unfold isSpaceChar
    rw [e2, decide_eq_decide]
    omega
  · have e1 : toLowerChar c = c := by unfold toLowerChar; exact if_neg h
    rw [e1]

/-- A string that lowercasing leaves unchanged, characterwise. -/
def lowerFixed (s : Str) : Prop := ∀ c ∈ s, toLowerChar c = c

theorem lowerFixed_toLowerStr (s : Str) : lowerFixed (toLowerStr s) := by
  intro c hc
  rw [toLowerStr, List.mem_map] at hc
  obtain ⟨a, _, rfl⟩ := hc
  exact toLowerChar_toLowerChar a

theorem toLowerStr_eq_self (s : Str) (h : lowerFixed s) : toLowerStr s = s := by
  induction s with
  | nil => rfl
  | cons c cs ih =>
    have h1 := h c (by simp)
    have h2 : lowerFixed cs := fun x hx => h x (by simp [hx])
    simpa [toLowerStr, h1] using ih h2

theorem lowerFixed_of_subset {s t : Str} (hsub : t ⊆ s) (h : lowerFixed s) :
    lowerFixed t := fun c hc => h c (hsub hc)

theorem trimLeft_subset (s : Str) : trimLeft s ⊆ s :=
  List.dropWhile_subset _

theorem trimRight_subset (s : Str) : trimRight s ⊆ s := by
  intro c hc
  rw [trimRight, List.mem_reverse] at hc
  exact (List.mem_reverse).1 (List.dropWhile_subset _ hc)

theorem trimSpace_subset (s : Str) : trimSpace s ⊆ s := by
  intro c hc
  exact trimLeft_subset s (trimRight_subset _ hc)

theorem lowerFixed_trimSpace {s : Str} (h : lowerFixed s) :
    lowerFixed (trimSpace s) :=
  lowerFixed_of_subset (trimSpace_subset s) h

/-! ### Association-list lemmas -/

theorem lookupKeys_insertKeys (ks : Keys) (k v k' : Str) :
    lookupKeys (insertKeys ks k v) k' =
      if k = k' then some v else lookupKeys ks k' := by
  induction ks with
  | nil => by_cases h : k = k' <;> simp [insertKeys, lookupKeys, h]
  | cons p rest ih =>
    obtain ⟨k0, v0⟩ := p
    by_cases h0 : k0 = k
    · subst h0
      simp only [insertKeys, if_pos rfl, lookupKeys]
      by_cases h' : k0 = k' <;> simp [h']
    · simp only [insertKeys, if_neg h0, lookupKeys]
      by_cases h' : k0 = k'
      · subst h'
        have hne : ¬ k = k0 := fun he => h0 he.symm
        simp [hne]
      · simp [h', ih]

theorem lookupSections_insertSectionKey (data : Sections) (s k v s' : Str) :
    lookupSections (insertSectionKey data s k v) s' =
      if s = s' then some (insertKeys ((lookupSections data s).getD []) k v)
      else lookupSections data s' := by
  induction data with
  | nil => by_cases h : s = s' <;> simp [insertSectionKey, insertKeys, lookupSections, h]
  | cons p rest ih =>
    obtain ⟨s0, ks⟩ := p
    by_cases h0 : s0 = s
    · subst h0
      simp only [insertSectionKey, if_pos rfl, lookupSections]
      by_cases h' : s0 = s' <;> simp [h']
    · simp only [insertSectionKey, if_neg h0, lookupSections]
      by_cases h' : s0 = s'
      · subst h'
        have hne : ¬ s = s0 := fun he => h0 he.symm
        simp [hne]
      · simp [h', ih, h0]

theorem lookup2_insertSectionKey (data : Sections) (s k v s' k' : Str) :
    lookup2 (insertSectionKey data s k v) s' k' =
      if s = s' ∧ k = k' then some v else lookup2 data s' k' := by
  unfold lookup2
  rw [lookupSections_insertSectionKey]
  by_cases hs : s = s'
  · subst hs
    rw [if_pos rfl]
    simp only [Option.getD_some]
    rw [lookupKeys_insertKeys]
    by_cases hk : k = k' <;> simp [hk]
  · rw [if_neg hs, if_neg (fun hc => hs hc.1)]

theorem lookupSections_isSome_iff (data : Sections) (s : Str) :
    (lookupSections data s).isSome = true ↔ s ∈ data.map Prod.fst := by
  induction data with
  | nil => simp [lookupSections]
  | cons p rest ih =>
    obtain ⟨s0, ks⟩ := p
    by_cases h : s0 = s
    · subst h
      simp [lookupSections]
    · have hne : ¬ s = s0 := fun he => h he.symm
      simp [lookupSections, h, ih, hne]

theorem map_fst_insertSectionKey (data : Sections) (s k v : Str) :
    (insertSectionKey data s k v).map Prod.fst =
      if (lookupSections data s).isSome then data.map Prod.fst
      else data.map Prod.fst ++ [s] := by
  induction data with
  | nil => simp [insertSectionKey, lookupSections]
  | cons p rest ih =>
    obtain ⟨s0, ks⟩ := p
    by_cases h : s0 = s
    · subst h
      simp [insertSectionKey, lookupSections]
    · simp only [insertSectionKey, if_neg h, lookupSections, List.map_cons]
      rw [ih]
      by_cases h2 : (lookupSections rest s).isSome = true <;> simp [h, h2]

theorem insertKeys_ne_nil (ks : Keys) (k v : Str) : insertKeys ks k v ≠ [] := by
  cases ks with
  | nil => simp [insertKeys]
  | cons p rest =>
    obtain ⟨k0, v0⟩ := p
    by_cases h : k0 = k <;> simp [insertKeys, h]

theorem mem_insertKeys (ks : Keys) (k v : Str) (q : Str × Str)
    (hq : q ∈ insertKeys ks k v) : q.1 = k ∨ q ∈ ks := by
  induction ks with
  | nil =>
    simp [insertKeys] at hq
    simp [hq]
  | cons p rest ih =>
    obtain ⟨k0, v0⟩ := p
    by_cases h : k0 = k
    · subst h
      simp [insertKeys] at hq
      rcases hq with h1 | h1
      · left
        rw [h1]
      · right
        exact List.mem_cons_of_mem _ h1
    · simp [insertKeys, h] at hq
      rcases hq with h1 | h1
      · right
        exact h1 ▸ List.mem_cons_self _ _
      · rcases ih h1 with h2 | h2
        · left; exact h2
        · right; exact List.mem_cons_of_mem _ h2

/-! ### Reduction lemmas for the parser step -/

theorem optOr_assoc (a b c : Option Str) :
    optOr (optOr a b) c = optOr a (optOr b c) := by
  cases a <;> simp [optOr]

theorem optOr_none_left (b : Option Str) : optOr none b = b := rfl

theorem optOr_none_right (a : Option Str) : optOr a none = a := by
  cases a <;> simp [optOr]

theorem ite_eq_optOr (c : Prop) [Decidable c] (v : Str) (b : Option Str) :
    (if c then some v else b) = optOr (if c then some v else none) b := by
  by_cases h : c <;> simp [h, optOr]

/-- Every error `processLine` emits carries the passed line number. -/
theorem processLine_error_num (st : Sections × Str) (n : Nat) (l : Str)
    (e : ParseError) (h : processLine st n l = .error e) : e.lineNumber = n := by
  simp only [processLine] at h
  by_cases h0 : (trimSpace (stripComment l)).isEmpty = true
  · rw [if_pos h0] at h
    cases h
  · rw [if_neg h0] at h
    by_cases h1 : (trimSpace (stripComment l)).head? = some '['
    · rw [if_pos h1] at h
      by_cases h2 : (trimSpace (stripComment l)).length ≤ 2 ∨
          (trimSpace (stripComment l)).getLast? ≠ some ']'
      · rw [if_pos h2] at h
        injection h with h3
        rw [← h3]
        rfl
      · rw [if_neg h2] at h
        cases h
    · rw [if_neg h1] at h
      cases hf : (trimSpace (stripComment l)).findIdx? (fun c => c == '=') with
      | none =>
        simp only [hf] at h
        injection h with h3
        rw [← h3]
        rfl
      | some i =>
        simp only [hf] at h
        by_cases hs : (st.2.isEmpty = true)
        · rw [if_pos hs] at h
          injection h with h3
          rw [← h3]
          rfl
        · rw [if_neg hs] at h
          by_cases hk : (toLowerStr (trimSpace ((trimSpace (stripComment l)).take i))).isEmpty = true
          · rw [if_pos hk] at h
            injection h with h3
            rw [← h3]
            rfl
          · rw [if_neg hk] at h
            cases h

/-- Exhaustive description of the successful outcomes of one loop
iteration: blank line, accepted section header, or accepted key/value. -/
theorem processLine_ok_cases (st : Sections × Str) (n : Nat) (l : Str)
    (st1 : Sections × Str) (h : processLine st n l = .ok st1) :
    ((trimSpace (stripComment l)).isEmpty = true ∧ st1 = st) ∨
    (¬((trimSpace (stripComment l)).isEmpty = true) ∧
      (trimSpace (stripComment l)).head? = some '[' ∧
      ¬((trimSpace (stripComment l)).length ≤ 2 ∨
        (trimSpace (stripComment l)).getLast? ≠ some ']') ∧
      st1 = (st.1, trimSpace (toLowerStr (((trimSpace (stripComment l)).drop 1).dropLast)))) ∨
    (∃ i, ¬((trimSpace (stripComment l)).isEmpty = true) ∧
      ¬((trimSpace (stripComment l)).head? = some '[') ∧
      (trimSpace (stripComment l)).findIdx? (fun c => c == '=') = some i ∧
      ¬(st.2.isEmpty = true) ∧
      ¬((toLowerStr (trimSpace ((trimSpace (stripComment l)).take i))).isEmpty = true) ∧
      st1 = (insertSectionKey st.1 st.2
              (toLowerStr (trimSpace ((trimSpace (stripComment l)).take i)))
              (trimSpace ((trimSpace (stripComment l)).drop (i + 1))), st.2)) := by
  simp only [processLine] at h
  by_cases h0 : (trimSpace (stripComment l)).isEmpty = true
  · rw [if_pos h0] at h
    injection h with h2
    exact Or.inl ⟨h0, h2.symm⟩
  · rw [if_neg h0] at h
    by_cases h1 : (trimSpace (stripComment l)).head? = some '['
    · rw [if_pos h1] at h
      by_cases h2 : (trimSpace (stripComment l)).length ≤ 2 ∨
          (trimSpace (stripComment l)).getLast? ≠ some ']'
      · rw [if_pos h2] at h
        cases h
      · rw [if_neg h2] at h
        injection h with h3
        exact Or.inr (Or.inl ⟨h0, h1, h2, h3.symm⟩)
    · rw [if_neg h1] at h
      cases hf : (trimSpace (stripComment l)).findIdx? (fun c => c == '=') with
      | none =>
        simp only [hf] at h
        cases h
      | some i =>
        simp only [hf] at h
        by_cases hs : (st.2.isEmpty = true)
        · rw [if_pos hs] at h
          cases h
        · rw [if_neg hs] at h
          by_cases hk : (toLowerStr (trimSpace ((trimSpace (stripComment l)).take i))).isEmpty = true
          · rw [if_pos hk] at h
            cases h
          · rw [if_neg hk] at h
            injection h with h3
            exact Or.inr (Or.inr ⟨i, h0, h1, rfl, hs, hk, h3.symm⟩)

theorem specAssignsFrom_cons_blank (l : Str) (ls : List Str) (sect : Str)
    (h0 : (trimSpace (stripComment l)).isEmpty = true) :
    specAssignsFrom (l :: ls) sect = specAssignsFrom ls sect := by
  simp only [specAssignsFrom]
  rw [if_pos h0]

theorem specAssignsFrom_cons_header (l : Str) (ls : List Str) (sect : Str)
    (h0 : ¬((trimSpace (stripComment l)).isEmpty = true))
    (h1 : (trimSpace (stripComment l)).head? = some '[')
    (h2 : ¬((trimSpace (stripComment l)).length ≤ 2 ∨
      (trimSpace (stripComment l)).getLast? ≠ some ']')) :
    specAssignsFrom (l :: ls) sect =
      specAssignsFrom ls (trimSpace (toLowerStr (((trimSpace (stripComment l)).drop 1).dropLast))) := by
  simp only [specAssignsFrom]
  rw [if_neg h0, if_pos h1, if_neg h2]

theorem specAssignsFrom_cons_key (l : Str) (ls : List Str) (sect : Str) (i : Nat)
    (h0 : ¬((trimSpace (stripComment l)).isEmpty = true))
    (h1 : ¬((trimSpace (stripComment l)).head? = some '['))
    (hf : (trimSpace (stripComment l)).findIdx? (fun c => c == '=') = some i)
    (hs : ¬(sect.isEmpty = true))
    (hk : ¬((toLowerStr (trimSpace ((trimSpace (stripComment l)).take i))).isEmpty = true)) :
    specAssignsFrom (l :: ls) sect =
      (sect, toLowerStr (trimSpace ((trimSpace (stripComment l)).take i)),
        trimSpace ((trimSpace (stripComment l)).drop (i + 1))) :: specAssignsFrom ls sect := by
  simp only [specAssignsFrom]
  rw [if_neg h0, if_neg h1]
  simp only [hf]
  rw [if_neg hs, if_neg hk]

/-! ### The read loop: composition, error positions, invariants -/

theorem parseLinesFrom_append_ok (p q : List Str) : ∀ (m : Nat) (st st1 : Sections × Str),
    parseLinesFrom p m st = .ok st1 →
    parseLinesFrom (p ++ q) m st = parseLinesFrom q (m + p.length) st1 := by
  induction p with
  | nil =>
    intro m st st1 h
    simp only [parseLinesFrom] at h
    injection h with h2
    rw [h2]
    simp
  | cons l ls ih =>
    intro m st st1 h
    simp only [parseLinesFrom] at h
    cases hp : processLine st (m + 1) l with
    | error e =>
      simp only [hp] at h
      cases h
    | ok st2 =>
      simp only [hp] at h
      rw [List.cons_append]
      simp only [parseLinesFrom, hp]
      rw [ih (m + 1) st2 st1 h]
      have harith : m + 1 + ls.length = m + (l :: ls).length := by
        simp [List.length_cons]
        omega
      rw [harith]

theorem parseLinesFrom_append_error (p q : List Str) : ∀ (m : Nat) (st : Sections × Str)
    (e : ParseError), parseLinesFrom p m st = .error e →
    parseLinesFrom (p ++ q) m st = .error e := by
  induction p with
  | nil =>
    intro m st e h
    simp only [parseLinesFrom] at h
    cases h
  | cons l ls ih =>
    intro m st e h
    simp only [parseLinesFrom] at h
    cases hp : processLine st (m + 1) l with
    | error e0 =>
      simp only [hp] at h
      rw [List.cons_append]
      simp only [parseLinesFrom, hp]
      exact h
    | ok st2 =>
      simp only [hp] at h
      rw [List.cons_append]
      simp only [parseLinesFrom, hp]
      exact ih (m + 1) st2 e h

/-- Every error the loop reports is at a line strictly after the `m` lines
already consumed. -/
theorem parseLinesFrom_error_gt (lines : List Str) : ∀ (m : Nat) (st : Sections × Str)
    (e : ParseError), parseLinesFrom lines m st = .error e → m < e.lineNumber := by
  induction lines with
  | nil =>
    intro m st e h
    simp only [parseLinesFrom] at h
    cases h
  | cons l ls ih =>
    intro m st e h
    simp only [parseLinesFrom] at h
    cases hp : processLine st (m + 1) l with
    | error e0 =>
      simp only [hp] at h
      injection h with h2
      have hn := processLine_error_num st (m + 1) l e0 hp
      rw [h2] at hn
      omega
    | ok st1 =>
      simp only [hp] at h
      have := ih (m + 1) st1 e h
      omega

/-- Invariant of every Document the parser builds: distinct section names,
each non-empty and lowercase-fixed, each with a non-empty key map whose key
names are lowercase-fixed. -/
def InvDoc (data : Sections) : Prop :=
  (data.map Prod.fst).Nodup ∧
  ∀ p ∈ data, p.1 ≠ [] ∧ lowerFixed p.1 ∧ p.2 ≠ [] ∧ ∀ q ∈ p.2, lowerFixed q.1

theorem insertSectionKey_entries (data : Sections) (s k v : Str)
    (hmem : ∀ p ∈ data, p.1 ≠ [] ∧ lowerFixed p.1 ∧ p.2 ≠ [] ∧ ∀ q ∈ p.2, lowerFixed q.1)
    (hs : s ≠ []) (hls : lowerFixed s) (hlk : lowerFixed k) :
    ∀ p ∈ insertSectionKey data s k v,
      p.1 ≠ [] ∧ lowerFixed p.1 ∧ p.2 ≠ [] ∧ ∀ q ∈ p.2, lowerFixed q.1 := by
  induction data with
  | nil =>
    intro p hp
    simp only [insertSectionKey, List.mem_singleton] at hp
    subst hp
    refine ⟨hs, hls, by simp, ?_⟩
    intro q hq
    simp only [List.mem_singleton] at hq
    subst hq
    exact hlk
  | cons hd rest ih =>
    obtain ⟨s0, ks⟩ := hd
    have hmem0 := hmem (s0, ks) (List.mem_cons_self _ _)
    have hmemr : ∀ p ∈ rest, p.1 ≠ [] ∧ lowerFixed p.1 ∧ p.2 ≠ [] ∧ ∀ q ∈ p.2, lowerFixed q.1 :=
      fun p hp => hmem p (List.mem_cons_of_mem _ hp)
    intro p hp
    by_cases h : s0 = s
    · simp only [insertSectionKey, if_pos h] at hp
      rcases List.mem_cons.mp hp with h1 | h1
      · subst h1
        exact ⟨hmem0.1, hmem0.2.1, insertKeys_ne_nil ks k v, fun q hq =>
          (mem_insertKeys ks k v q hq).elim (fun he => he ▸ hlk)
            (fun hm => hmem0.2.2.2 q hm)⟩
      · exact hmemr p h1
    · simp only [insertSectionKey, if_neg h] at hp
      rcases List.mem_cons.mp hp with h1 | h1
      · subst h1
        exact hmem0
      · exact ih hmemr p h1

theorem InvDoc_insertSectionKey (data : Sections) (s k v : Str)
    (hd : InvDoc data) (hs : s ≠ []) (hls : lowerFixed s) (hlk : lowerFixed k) :
    InvDoc (insertSectionKey data s k v) := by
  obtain ⟨hnd, hmem⟩ := hd
  refine ⟨?_, insertSectionKey_entries data s k v hmem hs hls hlk⟩
  rw [map_fst_insertSectionKey]
  by_cases h : (lookupSections data s).isSome = true
  · rw [if_pos h]
    exact hnd
  · rw [if_neg h]
    have hnotin : s ∉ data.map Prod.fst :=
      fun hin => h ((lookupSections_isSome_iff data s).mpr hin)
    rw [List.nodup_append]
    refine ⟨hnd, List.nodup_singleton s, ?_⟩
    intro a ha hb
    rw [List.mem_singleton] at hb
    exact hnotin (hb ▸ ha)

/-- Invariant of the loop state: the Document invariant plus the current
section name being lowercase-fixed. -/
def InvState (st : Sections × Str) : Prop := InvDoc st.1 ∧ lowerFixed st.2

theorem InvState_init : InvState (([] : Sections), ([] : Str)) :=
  ⟨⟨List.nodup_nil, fun p hp => absurd hp (by simp)⟩, fun c hc => absurd hc (by simp)⟩

theorem processLine_inv (st : Sections × Str) (n : Nat) (l : Str) (st1 : Sections × Str)
    (hst : InvState st) (h : processLine st n l = .ok st1) : InvState st1 := by
  rcases processLine_ok_cases st n l st1 h with
    ⟨h0, rfl⟩ | ⟨h0, h1, h2, rfl⟩ | ⟨i, h0, h1, hf, hs, hk, rfl⟩
  · exact hst
  · exact ⟨hst.1, lowerFixed_trimSpace (lowerFixed_toLowerStr _)⟩
  · refine ⟨InvDoc_insertSectionKey st.1 st.2 _ _ hst.1 ?_ hst.2 (lowerFixed_toLowerStr _), hst.2⟩
    intro he
    exact hs (by rw [he]; rfl)

theorem parseLinesFrom_inv (lines : List Str) : ∀ (m : Nat) (st stf : Sections × Str),
    InvState st → parseLinesFrom lines m st = .ok stf → InvState stf := by
  induction lines with
  | nil =>
    intro m st stf hst h
    simp only [parseLinesFrom] at h
    injection h with h2
    rwa [← h2]
  | cons l ls ih =>
    intro m st stf hst h
    simp only [parseLinesFrom] at h
    cases hp : processLine st (m + 1) l with
    | error e =>
      simp only [hp] at h
      cases h
    | ok st1 =>
      simp only [hp] at h
      exact ih (m + 1) st1 stf (processLine_inv st (m + 1) l st1 hst hp) h

/-- The central refinement: after a successful run of the loop, the stored
value of every (section, key) pair is the last accepted assignment to that
pair, falling back to whatever the starting state stored. -/
theorem parse_lookup (lines : List Str) : ∀ (m : Nat) (st stf : Sections × Str),
    parseLinesFrom lines m st = .ok stf →
    ∀ s k, lookup2 stf.1 s k =
      optOr (lastAssign (specAssignsFrom lines st.2) s k) (lookup2 st.1 s k) := by
  induction lines with
  | nil =>
    intro m st stf h s k
    simp only [parseLinesFrom] at h
    injection h with h2
    rw [← h2]
    simp [specAssignsFrom, lastAssign, optOr]
  | cons l ls ih =>
    intro m st stf h s k
    simp only [parseLinesFrom] at h
    cases hp : processLine st (m + 1) l with
    | error e =>
      simp only [hp] at h
      cases h
    | ok st1 =>
      simp only [hp] at h
      have hrec := ih (m + 1) st1 stf h s k
      rcases processLine_ok_cases st (m + 1) l st1 hp with
        ⟨h0, he⟩ | ⟨h0, h1, h2, rfl⟩ | ⟨i, h0, h1, hf, hs, hk, rfl⟩
      · rw [specAssignsFrom_cons_blank l ls st.2 h0]
        rw [he] at hrec
        exact hrec
      · rw [specAssignsFrom_cons_header l ls st.2 h0 h1 h2]
        exact hrec
      · rw [specAssignsFrom_cons_key l ls st.2 i h0 h1 hf hs hk]
        rw [hrec, lookup2_insertSectionKey]
        simp only [lastAssign]
        rw [optOr_assoc, ← ite_eq_optOr]

/-- Section-level refinement: a section is present after a successful run
exactly when some assignment targeted it, or it was present initially. -/
theorem parse_sections (lines : List Str) : ∀ (m : Nat) (st stf : Sections × Str),
    parseLinesFrom lines m st = .ok stf →
    ∀ s, ((lookupSections stf.1 s).isSome = true ↔
      ((∃ k v, (s, k, v) ∈ specAssignsFrom lines st.2) ∨
        (lookupSections st.1 s).isSome = true)) := by
  induction lines with
  | nil =>
    intro m st stf h s
    simp only [parseLinesFrom] at h
    injection h with h2
    rw [← h2]
    simp [specAssignsFrom]
  | cons l ls ih =>
    intro m st stf h s
    simp only [parseLinesFrom] at h
    cases hp : processLine st (m + 1) l with
    | error e =>
      simp only [hp] at h
      cases h
    | ok st1 =>
      simp only [hp] at h
      have hrec := ih (m + 1) st1 stf h s
      rcases processLine_ok_cases st (m + 1) l st1 hp with
        ⟨h0, he⟩ | ⟨h0, h1, h2, rfl⟩ | ⟨i, h0, h1, hf, hs, hk, rfl⟩
      · rw [specAssignsFrom_cons_blank l ls st.2 h0]
        rw [he] at hrec
        exact hrec
      · rw [specAssignsFrom_cons_header l ls st.2 h0 h1 h2]
        exact hrec
      · rw [specAssignsFrom_cons_key l ls st.2 i h0 h1 hf hs hk]
        rw [hrec]
        rw [lookupSections_insertSectionKey]
        by_cases hc : st.2 = s
        · rw [if_pos hc]
          constructor
          · intro hx
            exact Or.inl ⟨_, _, by rw [← hc]; exact List.mem_cons_self _ _⟩
          · intro hx
            exact Or.inr rfl
        · rw [if_neg hc]
          constructor
          · rintro (⟨k, v, hm⟩ | hx)
            · exact Or.inl ⟨k, v, List.mem_cons_of_mem _ hm⟩
            · exact Or.inr hx
          · rintro (⟨k, v, hm⟩ | hx)
            · rcases List.mem_cons.mp hm with he | hm2
              · exact absurd (congrArg (fun t => t.1) he).symm hc
              · exact Or.inl ⟨k, v, hm2⟩
            · exact Or.inr hx

/-! ### Corollaries at the `parseIni` level -/

theorem Read_eq_lookup2 (f : Ini) (s k : Str) :
    f.Read s k = (lookup2 f.sections s k).getD [] := by
  unfold Ini.Read lookup2
  cases lookupSections f.sections s <;> simp [lookupKeys]

theorem KeyExists_eq_lookup2 (f : Ini) (s k : Str) :
    f.KeyExists s k = (lookup2 f.sections s k).isSome := by
  unfold Ini.KeyExists lookup2
  cases lookupSections f.sections s <;> simp [lookupKeys]

theorem lookupKeys_isSome_iff (ks : Keys) (k : Str) :
    (lookupKeys ks k).isSome = true ↔ k ∈ ks.map Prod.fst := by
  induction ks with
  | nil => simp [lookupKeys]
  | cons p rest ih =>
    obtain ⟨k0, v0⟩ := p
    by_cases h : k0 = k
    · subst h
      simp [lookupKeys]
    · have hne : ¬ k = k0 := fun he => h he.symm
      simp [lookupKeys, h, ih, hne]

theorem lookupSections_mem (data : Sections) (s : Str) (ks : Keys)
    (h : lookupSections data s = some ks) : (s, ks) ∈ data := by
  induction data with
  | nil => cases h
  | cons p rest ih =>
    obtain ⟨s0, ks0⟩ := p
    by_cases h0 : s0 = s
    · subst h0
      simp only [lookupSections, if_pos rfl] at h
      injection h with h2
      rw [← h2]
      exact List.mem_cons_self _ _
    · simp only [lookupSections, if_neg h0] at h
      exact List.mem_cons_of_mem _ (ih h)

theorem parseIni_ok_exists (lines : List Str) (data : Sections)
    (h : parseIni lines = .ok data) :
    ∃ sect, parseLinesFrom lines 0 ([], []) = .ok (data, sect) := by
  unfold parseIni at h
  cases hp : parseLinesFrom lines 0 ([], []) with
  | error e =>
    rw [hp] at h
    cases h
  | ok st =>
    rw [hp] at h
    simp only [Except.map] at h
    injection h with h2
    refine ⟨st.2, ?_⟩
    rw [← h2]

theorem parseIni_InvDoc (lines : List Str) (data : Sections)
    (h : parseIni lines = .ok data) : InvDoc data := by
  obtain ⟨sect, hp⟩ := parseIni_ok_exists lines data h
  exact (parseLinesFrom_inv lines 0 ([], []) (data, sect) InvState_init hp).1

/-- After a successful parse, `Read` returns exactly the value of the last
accepted assignment to the queried (section, key) pair, or `""`. -/
theorem parseIni_Read (lines : List Str) (data : Sections) (s k : Str)
    (h : parseIni lines = .ok data) :
    (Ini.mk data).Read s k = (lastAssign (specAssigns lines) s k).getD [] := by
  obtain ⟨sect, hp⟩ := parseIni_ok_exists lines data h
  have hx := parse_lookup lines 0 ([], []) (data, sect) hp s k
  have hx2 : lookup2 data s k =
      optOr (lastAssign (specAssignsFrom lines []) s k) none := hx
  rw [Read_eq_lookup2]
  show (lookup2 data s k).getD [] = _
  rw [hx2, optOr_none_right]
  rfl

/-- After a successful parse, a section exists exactly when the input made
at least one accepted key assignment under it. -/
theorem parseIni_SectionExists (lines : List Str) (data : Sections) (s : Str)
    (h : parseIni lines = .ok data) :
    ((Ini.mk data).SectionExists s = true ↔ ∃ k v, (s, k, v) ∈ specAssigns lines) := by
  obtain ⟨sect, hp⟩ := parseIni_ok_exists lines data h
  have hx := parse_sections lines 0 ([], []) (data, sect) hp s
  constructor
  · intro hex
    rcases hx.mp hex with hk | hbad
    · exact hk
    · exact absurd hbad (by simp [lookupSections])
  · intro hk
    exact hx.mpr (Or.inl hk)

theorem optOr_isSome_right (a b : Option Str) (hb : b.isSome = true) :
    (optOr a b).isSome = true := by
  cases a <;> simp [optOr, hb]

theorem isEmptyStr_iff (x : Str) : x.isEmpty = true ↔ x = [] := by
  cases x <;> simp

theorem toLowerStr_isEmpty (x : Str) : (toLowerStr x).isEmpty = true ↔ x = [] := by
  cases x <;> simp [toLowerStr]

theorem head_some_not_empty {x : Str} {c : Char} (h : x.head? = some c) :
    ¬(x.isEmpty = true) := by
  cases x <;> simp_all

/-- The key/value branch of one loop iteration, isolated. -/
theorem processLine_key_eq (st : Sections × Str) (n : Nat) (l : Str)
    (hne : ¬((trimSpace (stripComment l)).isEmpty = true))
    (hnh : ¬((trimSpace (stripComment l)).head? = some '[')) :
    processLine st n l =
      match (trimSpace (stripComment l)).findIdx? (fun c => c == '=') with
      | none => .error (.invalidFormat n)
      | some i =>
        if st.2.isEmpty then .error (.keyWithoutSection n)
        else if (toLowerStr (trimSpace ((trimSpace (stripComment l)).take i))).isEmpty
          then .error (.emptyKey n)
        else .ok (insertSectionKey st.1 st.2
            (toLowerStr (trimSpace ((trimSpace (stripComment l)).take i)))
            (trimSpace ((trimSpace (stripComment l)).drop (i + 1))), st.2) := by
  simp only [processLine]
  rw [if_neg hne, if_neg hnh]

/-- The section-header branch of one loop iteration, isolated. -/
theorem processLine_header_eq (st : Sections × Str) (n : Nat) (l : Str)
    (hne : ¬((trimSpace (stripComment l)).isEmpty = true))
    (hh : (trimSpace (stripComment l)).head? = some '[') :
    processLine st n l =
      if (trimSpace (stripComment l)).length ≤ 2 ∨
          (trimSpace (stripComment l)).getLast? ≠ some ']' then
        .error (.invalidSection n)
      else
        .ok (st.1, trimSpace (toLowerStr (((trimSpace (stripComment l)).drop 1).dropLast))) := by
  simp only [processLine]
  rw [if_neg hne, if_pos hh]

theorem parseLinesFrom_cons_error (l : Str) (rest : List Str) (m : Nat)
    (st : Sections × Str) (e : ParseError) (h : processLine st (m + 1) l = .error e) :
    parseLinesFrom (l :: rest) m st = .error e := by
  simp only [parseLinesFrom, h]

theorem parseLinesFrom_cons_ok (l : Str) (rest : List Str) (m : Nat)
    (st st2 : Sections × Str) (h : processLine st (m + 1) l = .ok st2) :
    parseLinesFrom (l :: rest) m st = parseLinesFrom rest (m + 1) st2 := by
  simp only [parseLinesFrom, h]

theorem splitLines_ne_nil (s : Str) : splitLines s ≠ [] := by
  cases s with
  | nil => simp [splitLines]
  | cons c rest =>
    simp only [splitLines]
    cases h : splitLines rest with
    | nil => simp
    | cons l ls => by_cases hc : c = '\n' <;> simp [hc]

/-- Splitting at an explicit newline: the newline-free fragment before it is
one whole line, and the lines after it are computed from the tail alone. -/
theorem splitLines_append (s1 s2 : Str) (h : '\n' ∉ s1) :
    splitLines (s1 ++ '\n' :: s2) = s1 :: splitLines s2 := by
  induction s1 with
  | nil =>
    simp only [List.nil_append, splitLines]
    cases hs : splitLines s2 with
    | nil => exact absurd hs (splitLines_ne_nil s2)
    | cons l ls => simp
  | cons c cs ih =>
    have hc : ¬(c = '\n') := fun he => h (by rw [he]; exact List.mem_cons_self _ _)
    have hcs : '\n' ∉ cs := fun hm => h (List.mem_cons_of_mem _ hm)
    rw [List.cons_append]
    simp only [splitLines, ih hcs]
    rw [if_neg hc]

theorem stripComment_cons (c : Char) (l : Str) :
    stripComment (c :: l) =
      if (c == '#' || c == ';') = true then [] else c :: stripComment l := by
  unfold stripComment
  by_cases hc : (c == '#' || c == ';') = true
  · rw [if_pos hc, List.findIdx?_cons, if_pos hc]
    rfl
  · rw [if_neg hc, List.findIdx?_cons, if_neg hc, List.findIdx?_start_succ]
    cases hf : l.findIdx? (fun c => c == '#' || c == ';') with
    | none => simp
    | some n => simp

/-- `stripComment` keeps a comment-free prefix of the line and cuts exactly
at the first `#` or `;` when one occurs; nothing beyond the line is touched. -/
theorem stripComment_spec (l : Str) :
    (∀ c ∈ stripComment l, ¬(c = '#' ∨ c = ';')) ∧
    ∃ n, stripComment l = l.take n ∧
      (l.drop n = [] ∨ ∃ c, (l.drop n).head? = some c ∧ (c = '#' ∨ c = ';')) := by
  induction l with
  | nil => exact ⟨by simp [stripComment], 0, by simp [stripComment], Or.inl rfl⟩
  | cons c0 l ih =>
    rw [stripComment_cons]
    by_cases hc : (c0 == '#' || c0 == ';') = true
    · rw [if_pos hc]
      refine ⟨by simp, 0, by simp, Or.inr ⟨c0, by simp, ?_⟩⟩
      simpa using hc
    · rw [if_neg hc]
      obtain ⟨ih1, n, ihn, ihd⟩ := ih
      have hc2 : ¬(c0 = '#' ∨ c0 = ';') := by simpa using hc
      refine ⟨?_, n + 1, ?_, ?_⟩
      · intro c hcmem
        rcases List.mem_cons.mp hcmem with rfl | hm
        · exact hc2
        · exact ih1 c hm
      · rw [List.take_succ_cons, ihn]
      · rw [List.drop_succ_cons]
        exact ihd

/-! ### Claim C1 -/

/-- C1 (counterexample): the claim that `Read`, `SectionExists` and
`KeyExists` are case-insensitive is false — they look their arguments up
verbatim, and the parser stores lowercased names, so on the document parsed
from `[setting] / color = red` the query `Read("Setting","Color")` returns
the empty string while `Read("setting","color")` returns `red`. -/
theorem c1_counterexample :
    (parseIni ["[setting]".data, "color = red".data]).map
        (fun d => (Ini.mk d).Read "Setting".data "Color".data) = .ok "".data ∧
    (parseIni ["[setting]".data, "color = red".data]).map
        (fun d => (Ini.mk d).Read "setting".data "color".data) = .ok "red".data ∧
    (parseIni ["[setting]".data, "color = red".data]).map
        (fun d => (Ini.mk d).SectionExists "Setting".data) = .ok false ∧
    (parseIni ["[setting]".data, "color = red".data]).map
        (fun d => (Ini.mk d).SectionExists "setting".data) = .ok true ∧
    (parseIni ["[setting]".data, "color = red".data]).map
        (fun d => (Ini.mk d).KeyExists "setting".data "Color".data) = .ok false ∧
    (parseIni ["[setting]".data, "color = red".data]).map
        (fun d => (Ini.mk d).KeyExists "setting".data "color".data) = .ok true :=
  ⟨rfl, rfl, rfl, rfl, rfl, rfl⟩

/-- C1 (amended): `Read`, `SectionExists` and `KeyExists` perform exact,
case-sensitive lookups; since every section and key name stored by a
successful parse is lowercase (fixed under lowercasing), queries succeed
only on the lowercased forms, and passing the names already lowercased
gives the behaviour the spec describes. -/
theorem c1_amended (lines : List Str) (data : Sections) (s k : Str)
    (h : parseIni lines = .ok data) :
    ((Ini.mk data).SectionExists s = true → toLowerStr s = s) ∧
    ((Ini.mk data).KeyExists s k = true → toLowerStr s = s ∧ toLowerStr k = k) := by
  have hinv := parseIni_InvDoc lines data h
  have hsec : (Ini.mk data).SectionExists s = true → toLowerStr s = s := by
    intro hse
    have hmem := (lookupSections_isSome_iff data s).mp hse
    rw [List.mem_map] at hmem
    obtain ⟨p, hpmem, hps⟩ := hmem
    have hlf := (hinv.2 p hpmem).2.1
    rw [hps] at hlf
    exact toLowerStr_eq_self s hlf
  refine ⟨hsec, ?_⟩
  intro hke
  have hke2 : (lookup2 data s k).isSome = true := by
    have he := KeyExists_eq_lookup2 (Ini.mk data) s k
    rw [he] at hke
    exact hke
  unfold lookup2 at hke2
  cases hls : lookupSections data s with
  | none =>
    rw [hls] at hke2
    simp [lookupKeys] at hke2
  | some ks =>
    rw [hls] at hke2
    simp only [Option.getD_some] at hke2
    have hmemS : (s, ks) ∈ data := lookupSections_mem data s ks hls
    have hent := hinv.2 (s, ks) hmemS
    have hkmem := (lookupKeys_isSome_iff ks k).mp hke2
    rw [List.mem_map] at hkmem
    obtain ⟨q, hqmem, hqk⟩ := hkmem
    have hlfk := hent.2.2.2 q hqmem
    rw [hqk] at hlfk
    exact ⟨toLowerStr_eq_self s hent.2.1, toLowerStr_eq_self k hlfk⟩

/-- C1 (witness): the amended statement at the document parsed from
`[setting] / color = red`. -/
theorem c1_amended_witness :
    ((Ini.mk [("setting".data, [("color".data, "red".data)])]).SectionExists
        "setting".data = true → toLowerStr "setting".data = "setting".data) ∧
    ((Ini.mk [("setting".data, [("color".data, "red".data)])]).KeyExists
        "setting".data "color".data = true →
      toLowerStr "setting".data = "setting".data ∧
      toLowerStr "color".data = "color".data) :=
  c1_amended ["[setting]".data, "color = red".data]
    [("setting".data, [("color".data, "red".data)])] "setting".data "color".data rfl

/-! ### Claim C2 -/

/-- C2 (counterexample): after `[a] / x = 1 / [a] / y = 2` BOTH keys are
present under `a` — the second occurrence of the section merged into the
first one's keys instead of replacing them, contrary to the claim that only
the keys after the last header occurrence remain. -/
theorem c2_counterexample :
    (parseIni ["[a]".data, "x = 1".data, "[a]".data, "y = 2".data]).map
        (fun d => ((Ini.mk d).Read "a".data "x".data, (Ini.mk d).Read "a".data "y".data)) =
      .ok ("1".data, "2".data) := rfl

/-- C2 (amended): a repeated section header reuses the existing key map, so
keys accumulate (merge) across occurrences: every (section, key) pair
present after parsing a prefix of the input is still present after parsing
the whole input; per key, the last assignment anywhere wins. -/
theorem c2_amended (p q : List Str) (d : Sections)
    (h : parseIni (p ++ q) = .ok d) :
    ∃ dp, parseIni p = .ok dp ∧
      ∀ s k, (Ini.mk dp).KeyExists s k = true → (Ini.mk d).KeyExists s k = true := by
  unfold parseIni at h
  cases hp : parseLinesFrom p 0 ([], []) with
  | error e =>
    rw [parseLinesFrom_append_error p q 0 ([], []) e hp] at h
    simp only [Except.map] at h
    cases h
  | ok stp =>
    rw [parseLinesFrom_append_ok p q 0 ([], []) stp hp] at h
    cases hq : parseLinesFrom q (0 + p.length) stp with
    | error e =>
      rw [hq] at h
      simp only [Except.map] at h
      cases h
    | ok stf =>
      rw [hq] at h
      simp only [Except.map] at h
      injection h with h2
      refine ⟨stp.1, ?_, ?_⟩
      · unfold parseIni
        rw [hp]
        rfl
      · intro s k hke
        have hke2 : (lookup2 stp.1 s k).isSome = true := by
          have he := KeyExists_eq_lookup2 (Ini.mk stp.1) s k
          rw [he] at hke
          exact hke
        have hx := parse_lookup q (0 + p.length) stp stf hq s k
        have hgoal : (lookup2 stf.1 s k).isSome = true := by
          rw [hx]
          exact optOr_isSome_right _ _ hke2
        have he2 := KeyExists_eq_lookup2 (Ini.mk d) s k
        rw [he2]
        show (lookup2 d s k).isSome = true
        rw [← h2]
        exact hgoal

/-- C2 (witness): the keys written before the duplicate `[a]` header are
still readable afterwards. -/
theorem c2_amended_witness :
    (Ini.mk [("a".data, [("x".data, "1".data), ("y".data, "2".data)])]).KeyExists
      "a".data "x".data = true := by
  obtain ⟨dp, hdp, hmono⟩ := c2_amended ["[a]".data, "x = 1".data]
      ["[a]".data, "y = 2".data]
      [("a".data, [("x".data, "1".data), ("y".data, "2".data)])] rfl
  have hdp2 : dp = [("a".data, [("x".data, "1".data)])] := by
    have he : parseIni ["[a]".data, "x = 1".data] =
        .ok [("a".data, [("x".data, "1".data)])] := rfl
    rw [he] at hdp
    injection hdp with h2
    exact h2.symm
  apply hmono
  rw [hdp2]
  rfl

/-! ### Claim C3 -/

/-- C3 (counterexample): the header `[a]` is accepted, yet `a` does not
appear in `SectionList()` because no key was ever assigned under it — a
section map is only created when a key is stored. -/
theorem c3_counterexample :
    parseIni ["[a]".data] = .ok [] ∧
    (parseIni ["[a]".data]).map (fun d => (Ini.mk d).SectionList) = .ok [] :=
  ⟨rfl, rfl⟩

/-- C3 (amended): `SectionList()` returns, exactly once each and in
unspecified order, exactly the distinct lowercased section names under
which at least one key/value line was accepted; a section whose header was
accepted but that never received a key is absent. -/
theorem c3_amended (lines : List Str) (data : Sections)
    (h : parseIni lines = .ok data) :
    (Ini.mk data).SectionList.Nodup ∧
    ∀ s, (s ∈ (Ini.mk data).SectionList ↔ ∃ k v, (s, k, v) ∈ specAssigns lines) := by
  refine ⟨(parseIni_InvDoc lines data h).1, ?_⟩
  intro s
  have hx := parseIni_SectionExists lines data s h
  constructor
  · intro hmem
    exact hx.mp ((lookupSections_isSome_iff data s).mpr hmem)
  · intro hex
    exact (lookupSections_isSome_iff data s).mp (hx.mpr hex)

/-- C3 (witness): the amended statement at `[a] / x = 1 / [b]`, whose
Document holds exactly the section `a`. -/
theorem c3_amended_witness :
    (Ini.mk [("a".data, [("x".data, "1".data)])]).SectionList.Nodup ∧
    ("a".data ∈ (Ini.mk [("a".data, [("x".data, "1".data)])]).SectionList ↔
      ∃ k v, ("a".data, k, v) ∈ specAssigns ["[a]".data, "x = 1".data, "[b]".data]) := by
  have hx := c3_amended ["[a]".data, "x = 1".data, "[b]".data]
      [("a".data, [("x".data, "1".data)])] rfl
  exact ⟨hx.1, hx.2 "a".data⟩

/-! ### Claim C4 -/

/-- C4 (counterexample): the header line `[   ]` passes the length check
(length 5 > 2, ends in `]`) and is accepted, but the resulting section name
— the bracketed text trimmed — is EMPTY, contradicting the claim that every
accepted header yields a non-empty name. -/
theorem c4_counterexample :
    processLine ([], "x".data) 1 "[   ]".data = .ok ([], []) ∧
    parseIni ["[   ]".data] = .ok [] :=
  ⟨rfl, rfl⟩

/-- C4 (amended): the length check only makes the untrimmed bracket content
non-empty; an all-whitespace content such as `[   ]` is accepted and yields
the empty name.  Every section name present in a successfully parsed
Document is nevertheless non-empty (and lowercase), because keys are never
stored while the current section name is empty. -/
theorem c4_amended (lines : List Str) (data : Sections) (s : Str)
    (h : parseIni lines = .ok data)
    (hs : (Ini.mk data).SectionExists s = true) :
    s ≠ [] ∧ toLowerStr s = s := by
  have hinv := parseIni_InvDoc lines data h
  have hmem := (lookupSections_isSome_iff data s).mp hs
  rw [List.mem_map] at hmem
  obtain ⟨p, hpmem, hps⟩ := hmem
  have hp := hinv.2 p hpmem
  exact ⟨hps ▸ hp.1, toLowerStr_eq_self s (hps ▸ hp.2.1)⟩

/-- C4 (witness): the amended statement at the document of `[a] / x = 1`. -/
theorem c4_amended_witness :
    "a".data ≠ ([] : Str) ∧ toLowerStr "a".data = "a".data :=
  c4_amended ["[a]".data, "x = 1".data] [("a".data, [("x".data, "1".data)])]
    "a".data rfl rfl

/-! ### Claim C5 -/

/-- C5 (counterexample): `Read` does not lowercase its arguments, so
`Read("kamus","Makan")` returns the empty string even though the last value
assigned to the lowercased pair (`kamus`, `makan`) is `eat` — contradicting
the claim for non-lowercase queries. -/
theorem c5_counterexample :
    (parseIni ["[kamus]".data, "Makan = eat".data]).map
        (fun d => ((Ini.mk d).Read "kamus".data "Makan".data,
                   (Ini.mk d).Read "kamus".data "makan".data)) =
      .ok ("".data, "eat".data) := rfl

/-- C5 (amended): `Read(section, key)` returns exactly the trimmed value
text of the last accepted assignment to the pair exactly as queried —
assignments are stored under lowercased names, so for lowercase arguments
this is the behaviour the claim describes (duplicate keys: last wins) —
and the empty string when no such assignment exists (absent section or
key). -/
theorem c5_amended (lines : List Str) (data : Sections) (s k : Str)
    (h : parseIni lines = .ok data) :
    (Ini.mk data).Read s k = (lastAssign (specAssigns lines) s k).getD [] :=
  parseIni_Read lines data s k h

/-- C5 (witness): duplicate key `x` in one section — the later assignment
wins. -/
theorem c5_amended_witness :
    (Ini.mk [("a".data, [("x".data, "2".data)])]).Read "a".data "x".data =
      (lastAssign (specAssigns ["[a]".data, "x = 1".data, "x = 2".data])
        "a".data "x".data).getD [] :=
  c5_amended ["[a]".data, "x = 1".data, "x = 2".data]
    [("a".data, [("x".data, "2".data)])] "a".data "x".data rfl

/-! ### Claim C6 -/

/-- C6 (counterexample): after the accepted header `[   ]` a section header
HAS been accepted earlier in the input, yet the following key line (which
contains `=` and a non-empty key) still fails with KeyWithoutSection — the
code tests whether the current section NAME is empty, not whether a header
was accepted. -/
theorem c6_counterexample :
    parseIni ["[   ]".data] = .ok [] ∧
    parseIni ["[   ]".data, "x = 1".data] = .error (.keyWithoutSection 2) :=
  ⟨rfl, rfl⟩

/-- C6 (amended): for a line that is non-blank after comment stripping and
trimming and does not start with `[`, the parser checks in order: no `=` →
InvalidFormat; current section name empty (the initial state, also restored
by a header whose bracket content trims to empty) → KeyWithoutSection;
trimmed key before the first `=` empty → EmptyKey; otherwise the key/value
is stored.  Each error carries the 1-based number of the line, counting
every consumed input line. -/
theorem c6_amended (p : List Str) (l : Str) (rest : List Str)
    (data : Sections) (sect : Str) (line : Str)
    (hp : parseLinesFrom p 0 ([], []) = .ok (data, sect))
    (hline : line = trimSpace (stripComment l))
    (hne : ¬(line.isEmpty = true)) (hnh : ¬(line.head? = some '[')) :
    (line.findIdx? (fun c => c == '=') = none →
      parseIni (p ++ l :: rest) = .error (.invalidFormat (p.length + 1))) ∧
    (∀ i, line.findIdx? (fun c => c == '=') = some i → sect = [] →
      parseIni (p ++ l :: rest) = .error (.keyWithoutSection (p.length + 1))) ∧
    (∀ i, line.findIdx? (fun c => c == '=') = some i → sect ≠ [] →
      trimSpace (line.take i) = [] →
      parseIni (p ++ l :: rest) = .error (.emptyKey (p.length + 1))) ∧
    (∀ i, line.findIdx? (fun c => c == '=') = some i → sect ≠ [] →
      trimSpace (line.take i) ≠ [] →
      parseIni (p ++ l :: rest) =
        (parseLinesFrom rest (p.length + 1)
          (insertSectionKey data sect (toLowerStr (trimSpace (line.take i)))
            (trimSpace (line.drop (i + 1))), sect)).map Prod.fst) := by
  subst hline
  have happ := parseLinesFrom_append_ok p (l :: rest) 0 ([], []) (data, sect) hp
  rw [Nat.zero_add] at happ
  refine ⟨?_, ?_, ?_, ?_⟩
  · intro hfi
    have hkey := processLine_key_eq (data, sect) (p.length + 1) l hne hnh
    simp only [hfi] at hkey
    unfold parseIni
    rw [happ, parseLinesFrom_cons_error l rest p.length (data, sect) _ hkey]
    rfl
  · intro i hfi hsect
    have hkey := processLine_key_eq (data, sect) (p.length + 1) l hne hnh
    simp only [hfi] at hkey
    rw [if_pos (by rw [hsect]; rfl)] at hkey
    unfold parseIni
    rw [happ, parseLinesFrom_cons_error l rest p.length (data, sect) _ hkey]
    rfl
  · intro i hfi hsect hkey0
    have hkey := processLine_key_eq (data, sect) (p.length + 1) l hne hnh
    simp only [hfi] at hkey
    have hsect2 : ¬(((data, sect).2).isEmpty = true) :=
      fun hx => hsect ((isEmptyStr_iff sect).mp hx)
    rw [if_neg hsect2] at hkey
    rw [if_pos (by rw [hkey0]; rfl)] at hkey
    unfold parseIni
    rw [happ, parseLinesFrom_cons_error l rest p.length (data, sect) _ hkey]
    rfl
  · intro i hfi hsect hkeyne
    have hkey := processLine_key_eq (data, sect) (p.length + 1) l hne hnh
    simp only [hfi] at hkey
    have hsect2 : ¬(((data, sect).2).isEmpty = true) :=
      fun hx => hsect ((isEmptyStr_iff sect).mp hx)
    rw [if_neg hsect2] at hkey
    have hkne2 : ¬((toLowerStr (trimSpace ((trimSpace (stripComment l)).take i))).isEmpty = true) :=
      fun hx => hkeyne ((toLowerStr_isEmpty _).mp hx)
    rw [if_neg hkne2] at hkey
    unfold parseIni
    rw [happ, parseLinesFrom_cons_ok l rest p.length (data, sect) _ hkey]

/-- C6 (witness): the accepted outcome of the amended statement on
`[s] / x = 1`. -/
theorem c6_amended_witness :
    parseIni ["[s]".data, "x = 1".data] = .ok [("s".data, [("x".data, "1".data)])] := by
  have hx := (c6_amended ["[s]".data] "x = 1".data [] [] "s".data
      (trimSpace (stripComment "x = 1".data)) rfl rfl (by decide) (by decide)).2.2.2
      2 rfl (by decide) (by decide)
  exact hx.trans rfl

/-! ### Claim C7 -/

/-- C7: a line whose first character after comment stripping and trimming
is `[` makes the whole parse fail with InvalidSection at its 1-based line
number IF AND ONLY IF the trimmed line has length at most 2 or its last
character is not `]`; otherwise the line is accepted as a section header
and parsing continues with the new current section name. -/
theorem c7_section_check (p : List Str) (l : Str) (rest : List Str)
    (data : Sections) (sect : Str) (line : Str)
    (hp : parseLinesFrom p 0 ([], []) = .ok (data, sect))
    (hline : line = trimSpace (stripComment l))
    (hh : line.head? = some '[') :
    (parseIni (p ++ l :: rest) = .error (.invalidSection (p.length + 1)) ↔
      (line.length ≤ 2 ∨ line.getLast? ≠ some ']')) ∧
    (¬(line.length ≤ 2 ∨ line.getLast? ≠ some ']') →
      parseIni (p ++ l :: rest) =
        (parseLinesFrom rest (p.length + 1)
          (data, trimSpace (toLowerStr ((line.drop 1).dropLast)))).map Prod.fst) := by
  subst hline
  have hne := head_some_not_empty hh
  have happ := parseLinesFrom_append_ok p (l :: rest) 0 ([], []) (data, sect) hp
  rw [Nat.zero_add] at happ
  have hhead := processLine_header_eq (data, sect) (p.length + 1) l hne hh
  have haccept : ∀ _ : ¬((trimSpace (stripComment l)).length ≤ 2 ∨
      (trimSpace (stripComment l)).getLast? ≠ some ']'),
      parseIni (p ++ l :: rest) =
        (parseLinesFrom rest (p.length + 1)
          (data, trimSpace (toLowerStr (((trimSpace (stripComment l)).drop 1).dropLast)))).map
          Prod.fst := by
    intro hc
    rw [if_neg hc] at hhead
    unfold parseIni
    rw [happ, parseLinesFrom_cons_ok l rest p.length (data, sect) _ hhead]
  constructor
  · constructor
    · intro herr
      by_contra hc
      rw [haccept hc] at herr
      cases hrest : parseLinesFrom rest (p.length + 1)
          (data, trimSpace (toLowerStr (((trimSpace (stripComment l)).drop 1).dropLast))) with
      | error e =>
        rw [hrest] at herr
        simp only [Except.map] at herr
        injection herr with h2
        have hgt := parseLinesFrom_error_gt rest (p.length + 1) _ e hrest
        rw [h2] at hgt
        simp only [ParseError.lineNumber] at hgt
        omega
      | ok stf =>
        rw [hrest] at herr
        simp only [Except.map] at herr
        cases herr
    · intro hc
      rw [if_pos hc] at hhead
      unfold parseIni
      rw [happ, parseLinesFrom_cons_error l rest p.length (data, sect) _ hhead]
      rfl
  · exact haccept

/-- C7 (witness): `[]` is too short and the parse fails with InvalidSection
at line 1. -/
theorem c7_section_check_witness : parseIni ["[]".data] = .error (.invalidSection 1) := by
  have hx := (c7_section_check [] "[]".data [] [] [] (trimSpace (stripComment "[]".data))
      rfl rfl (by decide)).1
  exact hx.mpr (by decide)

/-! ### Claim C8 -/

/-- C8: comment stripping truncates each line at its first `#` or `;`: the
kept prefix holds no comment character and the cut point, when a cut
happens, holds one; and stripping never spans a line boundary — the lines
after a newline are computed from the text after the newline alone,
whatever comment characters appear before it. -/
theorem c8_comment_scope (l s1 s2 : Str) (h : '\n' ∉ s1) :
    ((∀ c ∈ stripComment l, ¬(c = '#' ∨ c = ';')) ∧
      ∃ n, stripComment l = l.take n ∧
        (l.drop n = [] ∨ ∃ c, (l.drop n).head? = some c ∧ (c = '#' ∨ c = ';'))) ∧
    splitLines (s1 ++ '\n' :: s2) = s1 :: splitLines s2 :=
  ⟨stripComment_spec l, splitLines_append s1 s2 h⟩

/-- C8 (witness): a comment character before a newline does not affect the
line after it. -/
theorem c8_comment_scope_witness :
    ('a' ∈ stripComment "a#b;c".data → ¬('a' = '#' ∨ 'a' = ';')) ∧
    splitLines ("x;y".data ++ '\n' :: "z=1".data) = "x;y".data :: splitLines "z=1".data := by
  have hx := c8_comment_scope "a#b;c".data "x;y".data "z=1".data (by decide)
  exact ⟨hx.1.1 'a', hx.2⟩

/-! ### Claim C9 -/

/-- C9: on an accepted key/value line the separator is the FIRST `=` of the
line: with the first `=` at index i, the stored key is the text before i
(trimmed, lowercased) and the stored value is the whole text after i,
trimmed but otherwise intact — any later `=` characters stay inside the
value. -/
theorem c9_first_separator (st : Sections × Str) (num : Nat) (l : Str)
    (tl : Str) (i : Nat)
    (hline : tl = trimSpace (stripComment l))
    (hne : ¬(tl.isEmpty = true)) (hnh : ¬(tl.head? = some '['))
    (hi : tl[i]? = some '=') (hleast : ∀ j, j < i → tl[j]? ≠ some '=')
    (hsect : ¬(st.2.isEmpty = true))
    (hkey : ¬((toLowerStr (trimSpace (tl.take i))).isEmpty = true)) :
    processLine st num l = .ok
      (insertSectionKey st.1 st.2 (toLowerStr (trimSpace (tl.take i)))
        (trimSpace (tl.drop (i + 1))), st.2) := by
  subst hline
  obtain ⟨hlen, hieq⟩ := List.getElem?_eq_some_iff.mp hi
  have hf : (trimSpace (stripComment l)).findIdx? (fun c => c == '=') = some i := by
    rw [List.findIdx?_eq_some_iff_getElem]
    refine ⟨hlen, ?_, ?_⟩
    · simp [hieq]
    · intro j hji hpj
      have hjlen : j < (trimSpace (stripComment l)).length := Nat.lt_trans hji hlen
      apply hleast j hji
      have hj2 : (trimSpace (stripComment l)).get ⟨j, hjlen⟩ = '=' := by
        simpa using hpj
      exact (List.getElem?_eq_getElem hjlen).trans (congrArg some hj2)
  have hkeyeq := processLine_key_eq st num l hne hnh
  simp only [hf] at hkeyeq
  rw [if_neg hsect, if_neg hkey] at hkeyeq
  exact hkeyeq

/-- C9 (witness): the Go test line `lihat = see = watch` stores the value
`see = watch` under the key `lihat`. -/
theorem c9_first_separator_witness :
    processLine ([], "kamus".data) 3 "lihat = see = watch".data = .ok
      ([("kamus".data, [("lihat".data, "see = watch".data)])], "kamus".data) := by
  have hx := c9_first_separator ([], "kamus".data) 3 "lihat = see = watch".data
      (trimSpace (stripComment "lihat = see = watch".data)) 6 rfl (by decide) (by decide)
      (by decide) (by decide) (by decide) (by decide)
  exact hx

/-! ### Claim C10 -/

/-- C10: a header such as `[   ]` (length > 2, ends in `]`, bracket content
all whitespace) is accepted and sets the current section name to the empty
string — the initial "no section open" value — so a following key/value
line fails with KeyWithoutSection, and no empty-named section ever appears
in a successfully parsed Document. -/
theorem c10_empty_header (data : Sections) (sect : Str) (num : Nat)
    (l l2 : Str) (line line2 : Str) (i : Nat) (lines : List Str) (d : Sections)
    (hline : line = trimSpace (stripComment l))
    (hh : line.head? = some '[')
    (hwf : ¬(line.length ≤ 2 ∨ line.getLast? ≠ some ']'))
    (htrim : trimSpace (toLowerStr ((line.drop 1).dropLast)) = [])
    (hline2 : line2 = trimSpace (stripComment l2))
    (hne2 : ¬(line2.isEmpty = true)) (hnh2 : ¬(line2.head? = some '['))
    (hf2 : line2.findIdx? (fun c => c == '=') = some i)
    (hparse : parseIni lines = .ok d) :
    processLine (data, sect) num l = .ok (data, []) ∧
    processLine (data, []) num l2 = .error (.keyWithoutSection num) ∧
    (Ini.mk d).SectionExists [] = false := by
  refine ⟨?_, ?_, ?_⟩
  · subst hline
    have hne := head_some_not_empty hh
    rw [processLine_header_eq (data, sect) num l hne hh, if_neg hwf, htrim]
  · subst hline2
    have hkeyeq := processLine_key_eq (data, []) num l2 hne2 hnh2
    simp only [hf2] at hkeyeq
    rw [if_pos (show (([] : Str).isEmpty = true) from rfl)] at hkeyeq
    exact hkeyeq
  · have hinv := parseIni_InvDoc lines d hparse
    by_contra hex
    rw [Bool.not_eq_false] at hex
    have hmem := (lookupSections_isSome_iff d []).mp hex
    rw [List.mem_map] at hmem
    obtain ⟨pp, hpmem, hps⟩ := hmem
    exact (hinv.2 pp hpmem).1 hps

/-- C10 (witness): the statement at `[   ]` followed by `x = 1`, with a
successfully parsed document from `[a] / y = 1`. -/
theorem c10_empty_header_witness :
    processLine ([("a".data, [("y".data, "1".data)])], "s".data) 5 "[   ]".data =
      .ok ([("a".data, [("y".data, "1".data)])], []) ∧
    processLine ([("a".data, [("y".data, "1".data)])], []) 5 "x = 1".data =
      .error (.keyWithoutSection 5) ∧
    (Ini.mk [("a".data, [("y".data, "1".data)])]).SectionExists [] = false := by
  have hx := c10_empty_header [("a".data, [("y".data, "1".data)])] "s".data 5
      "[   ]".data "x = 1".data (trimSpace (stripComment "[   ]".data))
      (trimSpace (stripComment "x = 1".data)) 2 ["[a]".data, "y = 1".data]
      [("a".data, [("y".data, "1".data)])] rfl (by decide) (by decide) (by decide)
      rfl (by decide) (by decide) (by decide) rfl
  exact hx

end Gini
